import Mathlib

/-!
Verification of the anon-pool order-engine core.

A shallow embedding of the Rust order-engine library
(`order-engine/lib/src/lib.rs`) and its off-chain Merkle tree builder
(`order-engine/script/src/bin/main.rs`), together with theorems settling the
specified properties of order validation, nullifier commitments, Merkle tree
construction, proof generation and proof verification.

Bytes are modelled as `List Nat` (each entry a byte value); `u64` fields are
`Nat` (no arithmetic in the code can overflow a `u64` for the properties at
issue, and all comparisons are order comparisons). SHA-256 is implemented
concretely and executably; no theorem depends on properties of the digest
beyond determinism.
-/

namespace AnonPool

/-- A sequence of bytes (`Vec<u8>` / `[u8; N]` in the source). -/
abbrev Bytes := List Nat

/-- `2 ^ 32`, the modulus for 32-bit words in SHA-256. -/
def w32 : Nat := 4294967296

/-- Right rotation of a 32-bit word. -/
def rotr (n x : Nat) : Nat := ((x >>> n) ||| (x <<< (32 - n))) % w32

/-- SHA-256 big sigma 0. -/
def bsig0 (x : Nat) : Nat := (rotr 2 x) ^^^ (rotr 13 x) ^^^ (rotr 22 x)

/-- SHA-256 big sigma 1. -/
def bsig1 (x : Nat) : Nat := (rotr 6 x) ^^^ (rotr 11 x) ^^^ (rotr 25 x)

/-- SHA-256 small sigma 0. -/
def ssig0 (x : Nat) : Nat := (rotr 7 x) ^^^ (rotr 18 x) ^^^ (x >>> 3)

/-- SHA-256 small sigma 1. -/
def ssig1 (x : Nat) : Nat := (rotr 17 x) ^^^ (rotr 19 x) ^^^ (x >>> 10)

/-- SHA-256 choice function. -/
def chF (x y z : Nat) : Nat := (x &&& y) ^^^ ((x ^^^ 4294967295) &&& z)

/-- SHA-256 majority function. -/
def majF (x y z : Nat) : Nat := (x &&& y) ^^^ (x &&& z) ^^^ (y &&& z)

/-- The 64 SHA-256 round constants (FIPS 180-4), written in decimal. -/
def K256 : List Nat :=
  [1116352408, 1899447441, 3049323471, 3921009573, 961987163, 1508970993,
   2453635748, 2870763221, 3624381080, 310598401, 607225278, 1426881987,
   1925078388, 2162078206, 2614888103, 3248222580, 3835390401, 4022224774,
   264347078, 604807628, 770255983, 1249150122, 1555081692, 1996064986,
   2554220882, 2821834349, 2952996808, 3210313671, 3336571891, 3584528711,
   113926993, 338241895, 666307205, 773529912, 1294757372, 1396182291,
   1695183700, 1986661051, 2177026350, 2456956037, 2730485921, 2820302411,
   3259730800, 3345764771, 3516065817, 3600352804, 4094571909, 275423344,
   430227734, 506948616, 659060556, 883997877, 958139571, 1322822218,
   1537002063, 1747873779, 1955562222, 2024104815, 2227730452, 2361852424,
   2428436474, 2756734187, 3204031479, 3329325298]

/-- Working state of the SHA-256 compression function: eight 32-bit words. -/
structure HashState where
  a : Nat
  b : Nat
  c : Nat
  d : Nat
  e : Nat
  f : Nat
  g : Nat
  h : Nat
deriving Repr, DecidableEq

/-- The SHA-256 initial hash value (FIPS 180-4), written in decimal. -/
def initH : HashState :=
  ⟨1779033703, 3144134277, 1013904242, 2773480762,
   1359893119, 2600822924, 528734635, 1541459225⟩

/-- One SHA-256 round: `kw` is the pair of round constant and schedule word. -/
def shaRound (st : HashState) (kw : Nat × Nat) : HashState :=
  let t1 := (st.h + bsig1 st.e + chF st.e st.f st.g + kw.1 + kw.2) % w32
  let t2 := (bsig0 st.a + majF st.a st.b st.c) % w32
  ⟨(t1 + t2) % w32, st.a, st.b, st.c, (st.d + t1) % w32, st.e, st.f, st.g⟩

/-- Packs bytes into big-endian 32-bit words, four bytes per word. -/
def bytesToWords : Bytes → List Nat
  | b0 :: b1 :: b2 :: b3 :: rest =>
    (b0 * 16777216 + b1 * 65536 + b2 * 256 + b3) :: bytesToWords rest
  | _ => []

/-- Extends the 16-word message schedule by `k` further words. -/
def extendSchedule : Nat → List Nat → List Nat
  | 0, w => w
  | k + 1, w =>
    let n := w.length
    let s0 := ssig0 (w.getD (n - 15) 0)
    let s1 := ssig1 (w.getD (n - 2) 0)
    extendSchedule k (w ++ [(w.getD (n - 16) 0 + s0 + w.getD (n - 7) 0 + s1) % w32])

/-- Compresses one 64-byte block into the running hash state. -/
def compressBlock (st : HashState) (block : Bytes) : HashState :=
  let ws := extendSchedule 48 (bytesToWords block)
  let r := (K256.zip ws).foldl shaRound st
  ⟨(st.a + r.a) % w32, (st.b + r.b) % w32, (st.c + r.c) % w32, (st.d + r.d) % w32,
   (st.e + r.e) % w32, (st.f + r.f) % w32, (st.g + r.g) % w32, (st.h + r.h) % w32⟩

/-- A `Nat` as eight big-endian bytes (the SHA-256 length field). -/
def beBytes8 (n : Nat) : Bytes :=
  [n / 2 ^ 56 % 256, n / 2 ^ 48 % 256, n / 2 ^ 40 % 256, n / 2 ^ 32 % 256,
   n / 2 ^ 24 % 256, n / 2 ^ 16 % 256, n / 2 ^ 8 % 256, n % 256]

/-- A 32-bit word as four big-endian bytes. -/
def beBytes4 (n : Nat) : Bytes := [n / 2 ^ 24 % 256, n / 2 ^ 16 % 256, n / 2 ^ 8 % 256, n % 256]

/-- SHA-256 padding: a `0x80` byte, zeros to a 64-byte boundary, then the
message bit length as eight big-endian bytes. -/
def padMessage (msg : Bytes) : Bytes :=
  let len := msg.length
  msg ++ [128] ++ List.replicate ((64 - (len + 9) % 64) % 64) 0 ++ beBytes8 (len * 8)

/-- Splits a byte sequence into `k` chunks of 64 bytes. -/
def chunksN : Nat → Bytes → List Bytes
  | 0, _ => []
  | k + 1, msg => msg.take 64 :: chunksN k (msg.drop 64)

/-- SHA-256 of a byte sequence, as a 32-byte digest. -/
def sha256 (msg : Bytes) : Bytes :=
  let padded := padMessage msg
  let fin := (chunksN (padded.length / 64) padded).foldl compressBlock initH
  beBytes4 fin.a ++ beBytes4 fin.b ++ beBytes4 fin.c ++ beBytes4 fin.d ++
  beBytes4 fin.e ++ beBytes4 fin.f ++ beBytes4 fin.g ++ beBytes4 fin.h

/-! ## Data model (`lib.rs`) -/

/-- `OrderData`: the immutable order record. Addresses are 20-byte arrays,
the numeric fields are `u64`. -/
structure OrderData where
  wallet_address : Bytes
  token_in : Bytes
  token_out : Bytes
  amount_in : Nat
  min_amount_out : Nat
  target_price : Nat
  deadline : Nat
deriving Repr, DecidableEq

/-- `MarketConditions`: price and timestamp supplied at verification time. -/
structure MarketConditions where
  current_price : Nat
  block_timestamp : Nat
deriving Repr, DecidableEq

/-- `OrderCommitment`: the private witness record. -/
structure OrderCommitment where
  order_data : OrderData
  nullifier : Bytes
  balance : Nat
deriving Repr, DecidableEq

/-- `NullifierData`: the public hash pair. -/
structure NullifierData where
  nullifier_hash : Bytes
  commitment_hash : Bytes
deriving Repr, DecidableEq

/-- `u64::to_le_bytes`: eight little-endian bytes. -/
def u64LeBytes (n : Nat) : Bytes :=
  [n % 256, n / 2 ^ 8 % 256, n / 2 ^ 16 % 256, n / 2 ^ 24 % 256,
   n / 2 ^ 32 % 256, n / 2 ^ 40 % 256, n / 2 ^ 48 % 256, n / 2 ^ 56 % 256]

/-- ASCII bytes of the domain tag `b"NULLIFIER_HASH"`. -/
def nullifierHashTag : Bytes := [78, 85, 76, 76, 73, 70, 73, 69, 82, 95, 72, 65, 83, 72]

/-- ASCII bytes of the domain tag `b"COMMITMENT_HASH"`. -/
def commitmentHashTag : Bytes := [67, 79, 77, 77, 73, 84, 77, 69, 78, 84, 95, 72, 65, 83, 72]

/-- ASCII bytes of the domain tag `b"MERKLE_NODE"`. -/
def merkleNodeTag : Bytes := [77, 69, 82, 75, 76, 69, 95, 78, 79, 68, 69]

/-- ASCII bytes of the domain tag `b"ORDER_NULLIFIER"`. -/
def orderNullifierTag : Bytes := [79, 82, 68, 69, 82, 95, 78, 85, 76, 76, 73, 70, 73, 69, 82]

/-! ## Hashing and validation (`lib.rs`) -/

/-- `hash_order`: SHA-256 over wallet, token-in, token-out, then the four
`u64` fields little-endian, with no domain tag. -/
def hash_order (order : OrderData) : Bytes :=
  sha256 (order.wallet_address ++ order.token_in ++ order.token_out ++
    u64LeBytes order.amount_in ++ u64LeBytes order.min_amount_out ++
    u64LeBytes order.target_price ++ u64LeBytes order.deadline)

/-- `validate_order`: deadline not passed, price at or above target, and the
recomputed order hash equal to the expected digest. -/
def validate_order (order : OrderData) (market : MarketConditions)
    (expected_hash : Bytes) : Bool :=
  if market.block_timestamp > order.deadline then false
  else if market.current_price < order.target_price then false
  else hash_order order == expected_hash

/-- `compute_nullifier_hash`: `NULLIFIER_HASH`-tagged SHA-256 of the nullifier. -/
def compute_nullifier_hash (nullifier : Bytes) : Bytes :=
  sha256 (nullifierHashTag ++ nullifier)

/-- `compute_commitment_hash`: `COMMITMENT_HASH`-tagged SHA-256 of the order
hash, the nullifier, and the little-endian balance. -/
def compute_commitment_hash (order : OrderData) (nullifier : Bytes) (balance : Nat) : Bytes :=
  sha256 (commitmentHashTag ++ hash_order order ++ nullifier ++ u64LeBytes balance)

/-- `verify_nullifier_knowledge`: recomputes both public hashes from the
private commitment and requires equality with the expected values. -/
def verify_nullifier_knowledge (commitment : OrderCommitment)
    (expected_commitment_hash expected_nullifier_hash : Bytes) : Bool :=
  if compute_commitment_hash commitment.order_data commitment.nullifier commitment.balance
      != expected_commitment_hash then false
  else if compute_nullifier_hash commitment.nullifier != expected_nullifier_hash then false
  else true

/-- One step of the Merkle fold in `verify_commitment_merkle_proof`: index `0`
hashes current-then-sibling, anything else sibling-then-current, under the
`MERKLE_NODE` tag. -/
def merkleStep (cur : Bytes) (sb : Bytes × Nat) : Bytes :=
  if sb.2 == 0 then sha256 (merkleNodeTag ++ cur ++ sb.1)
  else sha256 (merkleNodeTag ++ sb.1 ++ cur)

/-- `verify_commitment_merkle_proof`: rejects (with `false`) on a length
mismatch, otherwise folds the sibling path bottom-up and compares the result
with the expected root. -/
def verify_commitment_merkle_proof (commitment_hash : Bytes) (siblings : List Bytes)
    (indices : List Nat) (expected_root : Bytes) : Bool :=
  if siblings.length != indices.length then false
  else (siblings.zip indices).foldl merkleStep commitment_hash == expected_root

/-- `verify_nullifier_order`: nullifier knowledge, then balance sufficiency,
then order conditions against the order's own recomputed hash. -/
def verify_nullifier_order (commitment : OrderCommitment) (market : MarketConditions)
    (commitment_hash nullifier_hash : Bytes) : Bool :=
  if !verify_nullifier_knowledge commitment commitment_hash nullifier_hash then false
  else if commitment.balance < commitment.order_data.amount_in then false
  else if !validate_order commitment.order_data market (hash_order commitment.order_data)
    then false
  else true

/-- `generate_order_nullifier`: `ORDER_NULLIFIER`-tagged SHA-256 of the user
secret and the order context. -/
def generate_order_nullifier (user_secret order_context : Bytes) : Bytes :=
  sha256 (orderNullifierTag ++ user_secret ++ order_context)

/-- `create_order_commitment`: derives the nullifier, builds the private
commitment, and returns it with the public hash pair. -/
def create_order_commitment (order : OrderData) (user_secret : Bytes) (balance : Nat)
    (order_context : Bytes) : OrderCommitment × NullifierData :=
  let nullifier := generate_order_nullifier user_secret order_context
  (⟨order, nullifier, balance⟩,
   ⟨compute_nullifier_hash nullifier, compute_commitment_hash order nullifier balance⟩)

/-! ## Merkle commitment tree (`main.rs`) -/

/-- The all-zero 32-byte value `[0u8; 32]`, the root of the empty tree. -/
def zero32 : Bytes := List.replicate 32 0

/-- `CommitmentMerkleTree`: the ordered leaf sequence plus per-leaf user
labels (bookkeeping only, not hashed). -/
structure CommitmentMerkleTree where
  leaves : List Bytes
  users : List String
deriving Repr, DecidableEq

/-- `CommitmentMerkleTree::new`: the empty tree. -/
def CommitmentMerkleTree.new : CommitmentMerkleTree := ⟨[], []⟩

/-- `add_commitment`: appends a leaf hash and its user label. -/
def CommitmentMerkleTree.add_commitment (t : CommitmentMerkleTree)
    (commitment_hash : Bytes) (user_name : String) : CommitmentMerkleTree :=
  ⟨t.leaves ++ [commitment_hash], t.users ++ [user_name]⟩

/-- `hash_pair`: `MERKLE_NODE`-tagged SHA-256 of left-then-right. -/
def hash_pair (left right : Bytes) : Bytes := sha256 (merkleNodeTag ++ left ++ right)

/-- One level-building pass of `build_tree`: pairs adjacent nodes `(2i, 2i+1)`
and pairs an unpaired final node with itself. -/
def buildLevel : List Bytes → List Bytes
  | [] => []
  | [x] => [hash_pair x x]
  | x :: y :: rest => hash_pair x y :: buildLevel rest

/-- The level-building loop of `build_tree`, with an explicit fuel bound on
the number of iterations (the leaf count always suffices, since each pass at
least halves a level of length two or more). Collects every level, the leaf
level first. -/
def buildLevelsFuel : Nat → List Bytes → List (List Bytes)
  | 0, current => [current]
  | fuel + 1, current =>
    if current.length ≤ 1 then [current]
    else current :: buildLevelsFuel fuel (buildLevel current)

/-- `build_tree`: the all-zero root and no levels for an empty tree, otherwise
all levels from the leaves up and the single node of the last level as root. -/
def CommitmentMerkleTree.build_tree (t : CommitmentMerkleTree) :
    Bytes × List (List Bytes) :=
  if t.leaves.isEmpty then (zero32, [])
  else
    let levels := buildLevelsFuel t.leaves.length t.leaves
    ((levels.getLastD []).headD zero32, levels)

/-- The proof-collection loop of `generate_proof`: walks every level below the
root, recording the sibling (the node itself when the sibling index runs past
the level) and the parity bit of the current index. -/
def pathThrough : List (List Bytes) → Nat → List Bytes × List Nat
  | [], _ => ([], [])
  | [_], _ => ([], [])
  | level :: l2 :: rest, idx =>
    let sibIdx := if idx % 2 == 0 then idx + 1 else idx - 1
    let sib := if sibIdx < level.length then level.getD sibIdx zero32
               else level.getD idx zero32
    let tail := pathThrough (l2 :: rest) (idx / 2)
    (sib :: tail.1, idx % 2 :: tail.2)

/-- `generate_proof`: locates the first index holding the queried commitment
hash (an explicit error if absent), rebuilds the levels, and collects the
sibling path and parity bits. -/
def CommitmentMerkleTree.generate_proof (t : CommitmentMerkleTree)
    (commitment_hash : Bytes) : Except String (List Bytes × List Nat) :=
  match t.leaves.findIdx? (fun leaf => leaf == commitment_hash) with
  | none => Except.error ("Commitment not found in tree")
  | some leaf_index => Except.ok (pathThrough t.build_tree.2 leaf_index)

/-! ## Specification-side recomputations -/

/-- The Merkle fold of `verify_commitment_merkle_proof` written as plain
pairwise recursion, following the specified bottom-up rule: bit `0` hashes
current-then-sibling, a nonzero bit sibling-then-current. Used to state the
verifier's behaviour independently of the `zip`/`foldl` phrasing. -/
def foldMerkle : Bytes → List Bytes → List Nat → Bytes
  | cur, [], _ => cur
  | cur, _, [] => cur
  | cur, s :: ss, b :: bs =>
    foldMerkle (if b = 0 then hash_pair cur s else hash_pair s cur) ss bs

/-! ## Concrete inputs for witnesses -/

/-- The 32-byte value with every byte `1`. -/
def one32 : Bytes := List.replicate 32 1

/-- The 32-byte value with every byte `2`. -/
def two32 : Bytes := List.replicate 32 2

/-- The 32-byte value with every byte `3`. -/
def three32 : Bytes := List.replicate 32 3

/-- The 32-byte value with every byte `4`. -/
def four32 : Bytes := List.replicate 32 4

/-- The 32-byte value with every byte `5`. -/
def five32 : Bytes := List.replicate 32 5

/-- A concrete five-leaf tree, used to instantiate membership hypotheses. -/
def demoTree : CommitmentMerkleTree :=
  ⟨[one32, two32, three32, four32, five32],
   ["Alice", "Bob", "Charlie", "Diana", "Eve"]⟩

/-- A concrete three-leaf tree, used to instantiate membership hypotheses. -/
def demoTree3 : CommitmentMerkleTree := ⟨[one32, two32, three32], ["A", "B", "C"]⟩

/-! ## Helper lemmas -/

/-- `validate_order` is the conjunction of the inclusive deadline check, the
price floor, and equality of the recomputed hash with the expected digest. -/
theorem validate_order_iff (o : OrderData) (m : MarketConditions) (eh : Bytes) :
    validate_order o m eh = true ↔
      (m.block_timestamp ≤ o.deadline ∧ o.target_price ≤ m.current_price ∧
       hash_order o = eh) := by
  by_cases h1 : m.block_timestamp > o.deadline
  · simp [validate_order, h1]
  · by_cases h2 : m.current_price < o.target_price
    · simp [validate_order, h1, h2]
    · simp [validate_order, h1, h2, beq_iff_eq]
      exact ⟨fun h => ⟨by omega, by omega, h⟩, fun h => h.2.2⟩

/-- `validate_order` against the order's own recomputed hash reduces to the
deadline and price checks: the hash-equality step is tautological. -/
theorem validate_order_self (o : OrderData) (m : MarketConditions) :
    validate_order o m (hash_order o) =
      (decide (m.block_timestamp ≤ o.deadline) &&
       decide (o.target_price ≤ m.current_price)) := by
  by_cases h1 : m.block_timestamp > o.deadline
  · simp [validate_order, h1]
  · by_cases h2 : m.current_price < o.target_price
    · simp [validate_order, h1, h2]
    · simp [validate_order, h1, h2]
      constructor <;> omega

/-- The `zip`/`foldl` phrasing of the Merkle fold agrees with the plain
pairwise recursion `foldMerkle`. -/
theorem zipFold_eq_foldMerkle :
    ∀ (sibs : List Bytes) (idxs : List Nat) (cur : Bytes),
      (sibs.zip idxs).foldl merkleStep cur = foldMerkle cur sibs idxs
  | [], _, cur => by simp [foldMerkle]
  | _ :: _, [], cur => by simp [foldMerkle]
  | s :: ss, b :: bs, cur => by
    simp only [List.zip_cons_cons, List.foldl_cons]
    rw [zipFold_eq_foldMerkle ss bs]
    have hstep : merkleStep cur (s, b) =
        (if b = 0 then hash_pair cur s else hash_pair s cur) := by
      by_cases hb : b = 0 <;> simp [merkleStep, hash_pair, hb]
    rw [hstep]
    simp [foldMerkle]

/-- `verify_commitment_merkle_proof` is the length guard conjoined with
root-equality of the pairwise fold. -/
theorem verify_eq_foldMerkle (leaf : Bytes) (sibs : List Bytes) (idxs : List Nat)
    (root : Bytes) :
    verify_commitment_merkle_proof leaf sibs idxs root =
      (decide (sibs.length = idxs.length) && (foldMerkle leaf sibs idxs == root)) := by
  unfold verify_commitment_merkle_proof
  by_cases h : sibs.length = idxs.length
  · simp [h, zipFold_eq_foldMerkle]
  · simp [h]

/-- Folding along index lists that agree pointwise on zero-versus-nonzero
yields the same value. -/
theorem foldMerkle_zero_congr :
    ∀ (sibs : List Bytes) (i1 i2 : List Nat) (leaf : Bytes),
      i1.length = i2.length →
      (∀ k, k < i1.length → (i1.getD k 0 = 0 ↔ i2.getD k 0 = 0)) →
      foldMerkle leaf sibs i1 = foldMerkle leaf sibs i2
  | [], _, _, leaf, _, _ => by simp [foldMerkle]
  | _ :: _, [], [], leaf, _, _ => rfl
  | _ :: _, [], _ :: _, leaf, hlen, _ => by simp at hlen
  | _ :: _, _ :: _, [], leaf, hlen, _ => by simp at hlen
  | s :: ss, b1 :: bs1, b2 :: bs2, leaf, hlen, hpt => by
    have h0 : b1 = 0 ↔ b2 = 0 := by
      have := hpt 0 (by simp)
      simpa using this
    have hlen' : bs1.length = bs2.length := by simpa using hlen
    have hpt' : ∀ k, k < bs1.length → (bs1.getD k 0 = 0 ↔ bs2.getD k 0 = 0) := by
      intro k hk
      have := hpt (k + 1) (by simpa using hk)
      simpa using this
    by_cases hb : b1 = 0
    · have hb2 : b2 = 0 := h0.mp hb
      simp only [foldMerkle, hb, hb2, if_pos]
      exact foldMerkle_zero_congr ss bs1 bs2 _ hlen' hpt'
    · have hb2 : ¬ b2 = 0 := fun h => hb (h0.mpr h)
      simp only [foldMerkle, if_neg hb, if_neg hb2]
      exact foldMerkle_zero_congr ss bs1 bs2 _ hlen' hpt'

end AnonPool

namespace AnonPool

/-! ## Claim theorems -/

/-- C1: `verify_nullifier_order` is exactly the conjunction of nullifier
knowledge, inclusive balance sufficiency, and `validate_order` against the
order's own recomputed hash; equivalently (the hash sub-check being
tautological) the conjunction of the knowledge check, the balance check, the
inclusive deadline check, and the price floor. -/
theorem verify_nullifier_order_spec (c : OrderCommitment) (m : MarketConditions)
    (ch nh : Bytes) :
    verify_nullifier_order c m ch nh =
      (verify_nullifier_knowledge c ch nh &&
       decide (c.order_data.amount_in ≤ c.balance) &&
       validate_order c.order_data m (hash_order c.order_data))
    ∧ (verify_nullifier_order c m ch nh = true ↔
        (verify_nullifier_knowledge c ch nh = true ∧
         c.order_data.amount_in ≤ c.balance ∧
         m.block_timestamp ≤ c.order_data.deadline ∧
         c.order_data.target_price ≤ m.current_price)) := by
  constructor
  · cases hk : verify_nullifier_knowledge c ch nh
    · simp [verify_nullifier_order, hk]
    · by_cases hb : c.balance < c.order_data.amount_in
      · simp [verify_nullifier_order, hk, hb]
      · simp [verify_nullifier_order, hk, hb]
        have : c.order_data.amount_in ≤ c.balance := by omega
        simp [this]
  · cases hk : verify_nullifier_knowledge c ch nh
    · simp [verify_nullifier_order, hk]
    · by_cases hb : c.balance < c.order_data.amount_in
      · simp [verify_nullifier_order, hk, hb]
      · simp [verify_nullifier_order, hk, hb, validate_order_self]
        omega

/-- C3: `validate_order` returns true exactly when the market timestamp is at
most the deadline, the market price is at least the target price, and the
recomputed order hash equals the expected digest. -/
theorem validate_order_conjunction (o : OrderData) (m : MarketConditions) (eh : Bytes) :
    validate_order o m eh = true ↔
      (m.block_timestamp ≤ o.deadline ∧ o.target_price ≤ m.current_price ∧
       hash_order o = eh) :=
  validate_order_iff o m eh

/-- C4 counterexample: a sibling/index length mismatch yields the plain
boolean `false` — the very same value a failed root comparison yields — not
an explicit failure result distinct from `false`. -/
theorem merkle_proof_length_mismatch_silent_false :
    verify_commitment_merkle_proof zero32 [zero32] [] zero32 = false ∧
    verify_commitment_merkle_proof zero32 [] [] one32 = false := by
  constructor
  · rfl
  · decide

/-- C4 (amended): on a length mismatch the verifier returns the boolean
`false`; with equal lengths it folds bottom-up (index `0`: current then
sibling; nonzero: sibling then current) and returns true exactly when the
folded value equals the expected root. -/
theorem merkle_proof_fold_spec (leaf root : Bytes) (sibs : List Bytes)
    (idxs : List Nat) :
    verify_commitment_merkle_proof leaf sibs idxs root =
      (decide (sibs.length = idxs.length) && (foldMerkle leaf sibs idxs == root)) :=
  verify_eq_foldMerkle leaf sibs idxs root

/-- C5: the empty tree has the all-zero root and no levels; a level pairs
adjacent nodes and pairs an unpaired final node with itself; the three-leaf
root is `H(H(L0, L1), H(L2, L2))`. -/
theorem build_tree_spec :
    (∀ us : List String, CommitmentMerkleTree.build_tree ⟨[], us⟩ = (zero32, []))
    ∧ (∀ x : Bytes, buildLevel [x] = [hash_pair x x])
    ∧ (∀ (x y : Bytes) (rest : List Bytes),
        buildLevel (x :: y :: rest) = hash_pair x y :: buildLevel rest)
    ∧ (∀ (l0 l1 l2 : Bytes) (us : List String),
        (CommitmentMerkleTree.build_tree ⟨[l0, l1, l2], us⟩).1 =
          hash_pair (hash_pair l0 l1) (hash_pair l2 l2)) := by
  refine ⟨fun us => rfl, fun x => rfl, fun x y rest => rfl, fun l0 l1 l2 us => rfl⟩

/-- C6: `create_order_commitment` followed by `verify_nullifier_knowledge` on
the returned private commitment against the returned public hash pair always
succeeds. -/
theorem create_then_verify_knowledge (order : OrderData) (user_secret : Bytes)
    (balance : Nat) (order_context : Bytes) :
    verify_nullifier_knowledge
      (create_order_commitment order user_secret balance order_context).1
      (create_order_commitment order user_secret balance order_context).2.commitment_hash
      (create_order_commitment order user_secret balance order_context).2.nullifier_hash
      = true := by
  simp [create_order_commitment, verify_nullifier_knowledge]

/-- C9: with empty sibling and index lists the verifier succeeds exactly when
the leaf equals the expected root (the single-leaf-tree degenerate case). -/
theorem merkle_proof_empty_iff (h root : Bytes) :
    verify_commitment_merkle_proof h [] [] root = true ↔ h = root := by
  simp [verify_commitment_merkle_proof]

/-- C10: the verifier distinguishes path indices only by zero versus nonzero:
index lists of equal length agreeing pointwise on zeroness give the same
result. -/
theorem merkle_proof_index_zeroness (leaf : Bytes) (sibs : List Bytes) (root : Bytes)
    (i1 i2 : List Nat) (hlen : i1.length = i2.length)
    (hpt : ∀ k, k < i1.length → (i1.getD k 0 = 0 ↔ i2.getD k 0 = 0)) :
    verify_commitment_merkle_proof leaf sibs i1 root =
      verify_commitment_merkle_proof leaf sibs i2 root := by
  rw [verify_eq_foldMerkle, verify_eq_foldMerkle,
    foldMerkle_zero_congr sibs i1 i2 leaf hlen hpt, hlen]

/-- Each level-building pass of `build_tree` ceil-halves the level length. -/
theorem buildLevel_length : ∀ l : List Bytes, (buildLevel l).length = (l.length + 1) / 2
  | [] => rfl
  | [x] => by simp [buildLevel]
  | x :: y :: rest => by
    simp [buildLevel, buildLevel_length rest]
    omega

/-- Entry `j` of a built level is the hash of entries `2j` and `2j + 1` of
the level below, the latter replaced by entry `2j` itself when it runs past
the end (the odd-length self-pairing). -/
theorem buildLevel_getD : ∀ (l : List Bytes) (j : Nat), 2 * j < l.length →
    (buildLevel l).getD j zero32 =
      if 2 * j + 1 < l.length
      then hash_pair (l.getD (2 * j) zero32) (l.getD (2 * j + 1) zero32)
      else hash_pair (l.getD (2 * j) zero32) (l.getD (2 * j) zero32)
  | [], j, h => by simp at h
  | [x], j, h => by
    have hj : j = 0 := by
      simp at h
      omega
    subst hj
    simp [buildLevel]
  | x :: y :: rest, 0, h => by
    simp [buildLevel]
  | x :: y :: rest, j + 1, h => by
    have h' : 2 * j < rest.length := by
      simp only [List.length_cons] at h
      omega
    have ih := buildLevel_getD rest j h'
    have e3 : 2 * (j + 1) + 1 = 2 * j + 1 + 1 + 1 := by omega
    have e2 : 2 * (j + 1) = 2 * j + 1 + 1 := by omega
    rw [e3, e2]
    show (hash_pair x y :: buildLevel rest).getD (j + 1) zero32 = _
    rw [List.getD_cons_succ, ih]
    simp only [List.getD_cons_succ, List.length_cons]
    by_cases hlt : 2 * j + 1 < rest.length
    · rw [if_pos hlt, if_pos (by omega)]
    · rw [if_neg hlt, if_neg (by omega)]

/-- The sibling and parity-bit lists collected by `pathThrough` each have one
entry per level below the root. -/
theorem pathThrough_len : ∀ (ls : List (List Bytes)) (idx : Nat),
    (pathThrough ls idx).1.length = ls.length - 1 ∧
    (pathThrough ls idx).2.length = ls.length - 1
  | [], _ => by simp [pathThrough]
  | [_], _ => by simp [pathThrough]
  | l :: l2 :: rest, idx => by
    have ih := pathThrough_len (l2 :: rest) (idx / 2)
    simp only [pathThrough, List.length_cons]
    simp only [List.length_cons] at ih
    omega

/-- The level list always starts with the input level. -/
theorem buildLevelsFuel_head : ∀ (fuel : Nat) (l : List Bytes),
    ∃ tl, buildLevelsFuel fuel l = l :: tl
  | 0, l => ⟨[], rfl⟩
  | fuel + 1, l => by
    by_cases h : l.length ≤ 1
    · exact ⟨[], by simp [buildLevelsFuel, h]⟩
    · exact ⟨buildLevelsFuel fuel (buildLevel l), by simp [buildLevelsFuel, h]⟩

/-- With fuel covering the level count, the number of levels is the tree
height plus one: `ceil(log2(leaf count)) + 1`. -/
theorem buildLevelsFuel_length : ∀ (fuel : Nat) (l : List Bytes),
    0 < l.length → l.length ≤ fuel →
    (buildLevelsFuel fuel l).length = Nat.clog 2 l.length + 1
  | 0, l, h0, hf => by omega
  | fuel + 1, l, h0, hf => by
    by_cases hlen : l.length ≤ 1
    · have h1 : l.length = 1 := by omega
      simp [buildLevelsFuel, hlen, h1, Nat.clog_one_right]
    · have h2 : 2 ≤ l.length := by omega
      have hbll := buildLevel_length l
      have ih := buildLevelsFuel_length fuel (buildLevel l) (by omega) (by omega)
      simp only [buildLevelsFuel, if_neg hlen, List.length_cons, ih, hbll]
      rw [Nat.clog_of_two_le (by norm_num) h2]
      have : (l.length + 2 - 1) / 2 = (l.length + 1) / 2 := by omega
      rw [this]

/-- Folding a leaf up its collected sibling path recomputes the root: the
head of the last level produced by the level-building loop. -/
theorem path_fold_root : ∀ (fuel : Nat) (current : List Bytes) (idx : Nat),
    current.length ≤ fuel → idx < current.length →
    foldMerkle (current.getD idx zero32)
      (pathThrough (buildLevelsFuel fuel current) idx).1
      (pathThrough (buildLevelsFuel fuel current) idx).2
    = ((buildLevelsFuel fuel current).getLastD []).headD zero32
  | 0, current, idx, hfuel, hidx => by omega
  | fuel + 1, current, idx, hfuel, hidx => by
    by_cases hlen : current.length ≤ 1
    · cases current with
      | nil => simp at hidx
      | cons x xs =>
        cases xs with
        | cons y ys => simp at hlen
        | nil =>
          have hidx0 : idx = 0 := by
            simp at hidx
            omega
          subst hidx0
          simp [buildLevelsFuel, pathThrough, foldMerkle]
    · have h2 : 2 ≤ current.length := by omega
      have hbll := buildLevel_length current
      have hf2 : (buildLevel current).length ≤ fuel := by omega
      have hi2 : idx / 2 < (buildLevel current).length := by omega
      obtain ⟨tl, htl⟩ := buildLevelsFuel_head fuel (buildLevel current)
      have ih := path_fold_root fuel (buildLevel current) (idx / 2) hf2 hi2
      rw [htl] at ih
      have hbl : buildLevelsFuel (fuel + 1) current =
          current :: buildLevel current :: tl := by
        simp only [buildLevelsFuel, if_neg hlen]
        rw [htl]
      rw [hbl]
      rw [List.getLastD_cons, List.getLastD_cons]
      rw [List.getLastD_cons] at ih
      simp only [pathThrough, foldMerkle]
      have hg := buildLevel_getD current (idx / 2) (by omega)
      by_cases hpar : idx % 2 = 0
      · have hii : 2 * (idx / 2) = idx := by omega
        rw [hii] at hg
        have hcond : (idx % 2 == 0) = true := by
          simp [hpar]
        rw [if_pos hcond, if_pos hpar]
        by_cases hlt : idx + 1 < current.length
        · rw [if_pos hlt]
          rw [if_pos hlt] at hg
          rw [← hg]
          exact ih
        · rw [if_neg hlt]
          rw [if_neg hlt] at hg
          rw [← hg]
          exact ih
      · have h1 : idx % 2 = 1 := by omega
        have hjj : 2 * (idx / 2) + 1 = idx := by omega
        have hii : 2 * (idx / 2) = idx - 1 := by omega
        rw [hjj, hii] at hg
        rw [if_pos hidx] at hg
        have hcond : ¬ ((idx % 2 == 0) = true) := by
          simp [h1]
        rw [if_neg hcond, if_neg hpar]
        have hlt1 : idx - 1 < current.length := by omega
        rw [if_pos hlt1]
        rw [← hg]
        exact ih

/-- The first matching index of a present element is in range and holds the
element. -/
theorem findIdx_spec : ∀ (l : List Bytes) (x : Bytes), x ∈ l →
    l.findIdx (fun leaf => leaf == x) < l.length ∧
    l.getD (l.findIdx (fun leaf => leaf == x)) zero32 = x
  | [], x, hx => by simp at hx
  | a :: l, x, hx => by
    by_cases hax : a = x
    · subst hax
      constructor <;> simp [List.findIdx_cons]
    · have hx' : x ∈ l := by
        rcases List.mem_cons.mp hx with h | h
        · exact absurd h.symm hax
        · exact h
      have ih := findIdx_spec l x hx'
      have hbeq : (a == x) = false := by
        simp [hax]
      constructor
      · simp only [List.findIdx_cons, hbeq, Bool.cond_false, List.length_cons]
        omega
      · simp only [List.findIdx_cons, hbeq, Bool.cond_false, List.getD_cons_succ]
        exact ih.2

/-- `findIdx?` on a present element returns the first matching index, shifted
by the start offset. -/
theorem findIdxQ_some : ∀ (l : List Bytes) (x : Bytes) (i : Nat), x ∈ l →
    l.findIdx? (fun leaf => leaf == x) i =
      some (l.findIdx (fun leaf => leaf == x) + i)
  | [], x, i, hx => by simp at hx
  | a :: l, x, i, hx => by
    by_cases hax : a = x
    · subst hax
      simp [List.findIdx?_cons, List.findIdx_cons]
    · have hx' : x ∈ l := by
        rcases List.mem_cons.mp hx with h | h
        · exact absurd h.symm hax
        · exact h
      have hbeq : (a == x) = false := by
        simp [hax]
      have ih := findIdxQ_some l x (i + 1) hx'
      simp only [List.findIdx?_cons, List.findIdx_cons, hbeq, Bool.cond_false,
        Bool.false_eq_true, if_false, ih, Option.some.injEq]
      omega

/-- `findIdx?` on an absent element returns `none`. -/
theorem findIdxQ_none (l : List Bytes) (x : Bytes) (hx : x ∉ l) :
    l.findIdx? (fun leaf => leaf == x) = none := by
  rw [List.findIdx?_eq_none_iff]
  intro a ha
  rw [beq_eq_false_iff_ne]
  exact fun h => hx (h ▸ ha)

/-- `build_tree` on a non-empty tree, in terms of the level-building loop. -/
theorem build_tree_of_ne_nil (t : CommitmentMerkleTree) (hne : t.leaves ≠ []) :
    t.build_tree =
      (((buildLevelsFuel t.leaves.length t.leaves).getLastD []).headD zero32,
       buildLevelsFuel t.leaves.length t.leaves) := by
  unfold CommitmentMerkleTree.build_tree
  rw [if_neg (by simpa using hne)]

/-- C2: for every leaf present in the tree, `generate_proof` succeeds and the
returned siblings and indices, folded by `verify_commitment_merkle_proof`
from that leaf, recompute the current `build_tree` root: verification
returns true. -/
theorem merkle_proof_roundtrip (t : CommitmentMerkleTree) (h : Bytes)
    (hmem : h ∈ t.leaves) :
    ∃ sibs idxs, t.generate_proof h = Except.ok (sibs, idxs) ∧
      verify_commitment_merkle_proof h sibs idxs t.build_tree.1 = true := by
  have hne : t.leaves ≠ [] := by
    intro hnil
    rw [hnil] at hmem
    simp at hmem
  obtain ⟨hlt, hget⟩ := findIdx_spec t.leaves h hmem
  have hfq : t.leaves.findIdx? (fun leaf => leaf == h) =
      some (t.leaves.findIdx (fun leaf => leaf == h)) := by
    simpa using findIdxQ_some t.leaves h 0 hmem
  have hbt := build_tree_of_ne_nil t hne
  refine ⟨(pathThrough t.build_tree.2 (t.leaves.findIdx (fun leaf => leaf == h))).1,
    (pathThrough t.build_tree.2 (t.leaves.findIdx (fun leaf => leaf == h))).2, ?_, ?_⟩
  · unfold CommitmentMerkleTree.generate_proof
    rw [hfq]
  · rw [hbt, verify_eq_foldMerkle]
    have hlens := pathThrough_len (buildLevelsFuel t.leaves.length t.leaves)
      (t.leaves.findIdx (fun leaf => leaf == h))
    have hmain := path_fold_root t.leaves.length t.leaves
      (t.leaves.findIdx (fun leaf => leaf == h)) le_rfl hlt
    rw [hget] at hmain
    simp [hlens.1, hlens.2, hmain]

/-- C2 witness: leaf `two32` of the concrete five-leaf tree round-trips. -/
theorem merkle_proof_roundtrip_witness :
    two32 ∈ demoTree.leaves ∧
    (∃ sibs idxs, demoTree.generate_proof two32 = Except.ok (sibs, idxs) ∧
      verify_commitment_merkle_proof two32 sibs idxs demoTree.build_tree.1 = true) :=
  ⟨by decide, merkle_proof_roundtrip demoTree two32 (by decide)⟩

/-- C7: `generate_proof` returns an explicit error exactly when the queried
hash is absent from the leaf sequence, and otherwise succeeds with the proof
for the leaf's first matching index; success is equivalent to membership. -/
theorem generate_proof_membership (t : CommitmentMerkleTree) (h : Bytes) :
    t.generate_proof h =
      (if h ∈ t.leaves
       then Except.ok (pathThrough t.build_tree.2
         (t.leaves.findIdx (fun leaf => leaf == h)))
       else Except.error ("Commitment not found in tree"))
    ∧ ((t.generate_proof h).isOk = true ↔ h ∈ t.leaves) := by
  by_cases hmem : h ∈ t.leaves
  · have hfq : t.leaves.findIdx? (fun leaf => leaf == h) =
        some (t.leaves.findIdx (fun leaf => leaf == h)) := by
      simpa using findIdxQ_some t.leaves h 0 hmem
    have he : t.generate_proof h = Except.ok (pathThrough t.build_tree.2
        (t.leaves.findIdx (fun leaf => leaf == h))) := by
      unfold CommitmentMerkleTree.generate_proof
      rw [hfq]
    rw [he, if_pos hmem]
    simp [Except.isOk, Except.toBool, hmem]
  · have hfq := findIdxQ_none t.leaves h hmem
    have he : t.generate_proof h = Except.error ("Commitment not found in tree") := by
      unfold CommitmentMerkleTree.generate_proof
      rw [hfq]
    rw [he, if_neg hmem]
    simp [Except.isOk, Except.toBool, hmem]

/-- C8: for every leaf present in a tree of `n` leaves, the sibling and index
lists returned by `generate_proof` each have length `ceil(log2 n)`. -/
theorem generate_proof_length (t : CommitmentMerkleTree) (h : Bytes)
    (hmem : h ∈ t.leaves) :
    ∃ sibs idxs, t.generate_proof h = Except.ok (sibs, idxs) ∧
      sibs.length = Nat.clog 2 t.leaves.length ∧
      idxs.length = Nat.clog 2 t.leaves.length := by
  have hne : t.leaves ≠ [] := by
    intro hnil
    rw [hnil] at hmem
    simp at hmem
  have hpos : 0 < t.leaves.length := List.length_pos.mpr hne
  have hfq : t.leaves.findIdx? (fun leaf => leaf == h) =
      some (t.leaves.findIdx (fun leaf => leaf == h)) := by
    simpa using findIdxQ_some t.leaves h 0 hmem
  have hbt := build_tree_of_ne_nil t hne
  have hlens := pathThrough_len (buildLevelsFuel t.leaves.length t.leaves)
    (t.leaves.findIdx (fun leaf => leaf == h))
  have hL := buildLevelsFuel_length t.leaves.length t.leaves hpos le_rfl
  refine ⟨(pathThrough t.build_tree.2 (t.leaves.findIdx (fun leaf => leaf == h))).1,
    (pathThrough t.build_tree.2 (t.leaves.findIdx (fun leaf => leaf == h))).2, ?_, ?_, ?_⟩
  · unfold CommitmentMerkleTree.generate_proof
    rw [hfq]
  · rw [hbt]
    rw [hlens.1, hL]
    omega
  · rw [hbt]
    rw [hlens.2, hL]
    omega

/-- C8 witness: in the concrete three-leaf tree the proof for `one32` has
`ceil(log2 3) = 2` siblings and indices. -/
theorem generate_proof_length_witness :
    one32 ∈ demoTree3.leaves ∧
    (∃ sibs idxs, demoTree3.generate_proof one32 = Except.ok (sibs, idxs) ∧
      sibs.length = Nat.clog 2 demoTree3.leaves.length ∧
      idxs.length = Nat.clog 2 demoTree3.leaves.length) :=
  ⟨by decide, generate_proof_length demoTree3 one32 (by decide)⟩

/-- C10 witness: index bytes `2` and `255` behave exactly like index byte `1`. -/
theorem merkle_proof_index_zeroness_witness :
    (([2] : List Nat).length = ([255] : List Nat).length) ∧
    (∀ k, k < ([2] : List Nat).length →
      (([2] : List Nat).getD k 0 = 0 ↔ ([255] : List Nat).getD k 0 = 0)) ∧
    verify_commitment_merkle_proof zero32 [one32] [2] zero32 =
      verify_commitment_merkle_proof zero32 [one32] [255] zero32 :=
  ⟨by decide, by decide,
   merkle_proof_index_zeroness zero32 [one32] zero32 [2] [255] (by decide) (by decide)⟩

end AnonPool
